import Mathlib

/-!
Shallow embedding of the filebulk indexing/query engine
(src/filebulk/index.py, src/filebulk/__main__.py, src/filebulk/io_utils.py)
and proofs about it.

Modelling conventions:
* An `Entry` mirrors the `Entry` dataclass: relative file path, size, md5 hash.
* The SQLite table of entries is modelled as a `List Entry` in insertion
  (rowid) order; each SQL query of `index.py` is translated into a pure
  function over that list, following the SQL's documented semantics.
* MD5 digests are modelled as an injective function of the byte stream fed
  into them (spec section 4.1 treats the hasher as collision-free for
  equality detection), so a running digest is represented by the
  concatenation of the strings fed into it and `hexdigest` by that
  concatenation itself.
* Pattern matching: `fnmatch.translate` + `re.match` (used by
  `Filter.test`) is modelled by `globMatch`, a full-string matcher with
  `*`, `?`, `[...]` classes and case-sensitive literals; the SQL `LIKE`
  operator generated by `Filter.__init__` (used by `unique_hashes`) is
  modelled by `sqlLike`: `%` matches any run, `_` one character, and
  literals compare after folding ASCII upper case to lower case (SQLite's
  default LIKE; the `COLLATE utf8_general_ci` suffix in the generated SQL
  is ignored by SQLite's LIKE operator).
* The two matchers take an explicit fuel argument so that they are
  structurally recursive and evaluate inside the kernel; every recursive
  call strictly decreases `pattern.length + text.length`, so the wrappers
  pass `pattern.length + text.length + 1` fuel, which is never exhausted.
-/

namespace Filebulk

/-- One row of the `entry` table: the `Entry` dataclass of index.py
(fields in declaration order `filePath`, `fileSize`, `md5Hash`). -/
structure Entry where
  filePath : String
  fileSize : Nat
  md5Hash : String
  deriving DecidableEq

/-- Scan a glob character-class body for the closing `]`, returning the
class body and the rest of the pattern (the scan loop of
`fnmatch.translate`). -/
def scanToClose : List Char → Option (List Char × List Char)
  | [] => none
  | c :: cs =>
    if c = ']' then some ([], cs)
    else (scanToClose cs).map (fun pr => (c :: pr.1, pr.2))

/-- Split a glob pattern right after `[` into the class body and the rest,
following `fnmatch.translate`: a `!` right after `[` and a `]` right after
that are part of the body; if no closing `]` exists the `[` is literal
(result `none`). -/
def classSpan (ps : List Char) : Option (List Char × List Char) :=
  match ps with
  | '!' :: ']' :: rest => (scanToClose rest).map (fun pr => ('!' :: ']' :: pr.1, pr.2))
  | '!' :: rest => (scanToClose rest).map (fun pr => ('!' :: pr.1, pr.2))
  | ']' :: rest => (scanToClose rest).map (fun pr => (']' :: pr.1, pr.2))
  | rest => scanToClose rest

theorem scanToClose_length : ∀ cs s r, scanToClose cs = some (s, r) → r.length < cs.length := by
  intro cs
  induction cs with
  | nil => intro s r h; simp [scanToClose] at h
  | cons c cs ih =>
    intro s r h
    by_cases hc : c = ']'
    · rw [scanToClose, if_pos hc] at h
      cases h
      simp
    · rw [scanToClose, if_neg hc, Option.map_eq_some'] at h
      obtain ⟨⟨a, b⟩, hab, heq⟩ := h
      cases heq
      have := ih a b hab
      simp
      omega

theorem classSpan_length : ∀ ps s r, classSpan ps = some (s, r) → r.length < ps.length := by
  intro ps s r h
  unfold classSpan at h
  split at h
  · rw [Option.map_eq_some'] at h
    obtain ⟨⟨a, b⟩, hab, heq⟩ := h
    cases heq
    have := scanToClose_length _ a b hab
    simp
    omega
  · rw [Option.map_eq_some'] at h
    obtain ⟨⟨a, b⟩, hab, heq⟩ := h
    cases heq
    have := scanToClose_length _ a b hab
    simp
    omega
  · rw [Option.map_eq_some'] at h
    obtain ⟨⟨a, b⟩, hab, heq⟩ := h
    cases heq
    have := scanToClose_length _ a b hab
    simp
    omega
  · exact scanToClose_length _ s r h

/-- Membership test for a glob character class body: `a-b` is a range,
anything else a literal member (the character-class regex produced by
`fnmatch.translate`). -/
def memberMatch : List Char → Char → Bool
  | a :: '-' :: b :: rest, c => (decide (a ≤ c) && decide (c ≤ b)) || memberMatch rest c
  | a :: rest, c => (a == c) || memberMatch rest c
  | [], _ => false

/-- Match one character against a glob class body; a leading `!` negates
(`fnmatch.translate` turns it into a negated regex class). -/
def matchClass (stuff : List Char) (c : Char) : Bool :=
  match stuff with
  | '!' :: s => !(memberMatch s c)
  | s => memberMatch s c

/-- Fuelled worker for `globMatch`; see the module docstring for the fuel
convention. -/
def globMatchF : Nat → List Char → List Char → Bool
  | 0, _, _ => false
  | _ + 1, [], [] => true
  | _ + 1, [], _ :: _ => false
  | n + 1, p :: ps, [] => if p = '*' then globMatchF n ps [] else false
  | n + 1, p :: ps, t :: ts =>
    if p = '*' then globMatchF n ps (t :: ts) || globMatchF n (p :: ps) ts
    else if p = '[' then
      match classSpan ps with
      | some pr => matchClass pr.1 t && globMatchF n pr.2 ts
      | none => (p == t) && globMatchF n ps ts
    else if p = '?' then globMatchF n ps ts
    else (p == t) && globMatchF n ps ts

/-- Full-string glob matching, the model of `re.match` applied to
`fnmatch.translate(pattern)` (each translated alternative is anchored with
a trailing end-of-string marker, so the whole path must match): `*`
matches any run of characters, `?` any single character, `[...]` a
character class, every other character itself, case-sensitively. -/
def globMatch (pat txt : List Char) : Bool :=
  globMatchF (pat.length + txt.length + 1) pat txt

/-- The compiled include/exclude pattern lists of `Filter.__init__`
(index.py). The real object stores a compiled alternation regex per
non-empty list (`None` for an empty list) plus the generated SQL WHERE
clause; both are recovered here as functions of the two lists. -/
structure Filter where
  includes : List String
  excludes : List String
  deriving DecidableEq

/-- The compiled alternation regex of `Filter.__init__` matched against a
path: some pattern in the list glob-matches the whole path. For an empty
list the code stores `None`, which is modelled by `anyGlob [] p = false`
(`List.any` of an empty list). -/
def anyGlob (pats : List String) (p : String) : Bool :=
  pats.any (fun pat => globMatch pat.data p.data)

/-- Model of `Filter.test` (index.py lines 100-104): if the exclude regex
exists (non-empty list) and matches, reject; otherwise accept when the
include regex does not exist (empty list) or matches. -/
def Filter.test (f : Filter) (p : String) : Bool :=
  if !f.excludes.isEmpty && anyGlob f.excludes p then false
  else f.includes.isEmpty || anyGlob f.includes p

/-- C4: for every compiled Filter and every path, a path matching any
exclude pattern is rejected even when an include pattern also matches;
otherwise the path is accepted exactly when the include list is empty or
some include pattern matches it. -/
theorem filter_test_spec (inc exc : List String) (p : String) :
    (anyGlob exc p = true → Filter.test ⟨inc, exc⟩ p = false) ∧
    (anyGlob exc p = false →
      (Filter.test ⟨inc, exc⟩ p = true ↔ inc = [] ∨ anyGlob inc p = true)) := by
  constructor
  · intro hexc
    have hne : exc ≠ [] := by
      intro hnil
      rw [hnil] at hexc
      simp [anyGlob] at hexc
    simp [Filter.test, hexc, List.isEmpty_iff, hne]
  · intro hexc
    simp [Filter.test, hexc, List.isEmpty_iff]

/-- Witness for C4 at concrete inputs: `a.txt` matches both the include
pattern `*.txt` and the exclude pattern `a*` and is rejected; with an
exclude list not matching `a.txt`, acceptance is equivalent to some
include pattern matching. -/
theorem filter_test_spec_witness :
    Filter.test ⟨["*.txt"], ["a*"]⟩ "a.txt" = false ∧
    (Filter.test ⟨["*.txt"], ["b*"]⟩ "a.txt" = true ↔
      ["*.txt"] = ([] : List String) ∨ anyGlob ["*.txt"] "a.txt" = true) :=
  ⟨(filter_test_spec ["*.txt"] ["a*"] "a.txt").1 (by decide),
   (filter_test_spec ["*.txt"] ["b*"] "a.txt").2 (by decide)⟩

/-- SQLite's default LIKE folds ASCII upper case to lower case before
comparing. -/
def likeFold (c : Char) : Char :=
  if 'A' ≤ c ∧ c ≤ 'Z' then Char.ofNat (c.toNat + 32) else c

/-- Fuelled worker for `sqlLike`; see the module docstring for the fuel
convention. -/
def sqlLikeF : Nat → List Char → List Char → Bool
  | 0, _, _ => false
  | _ + 1, [], [] => true
  | _ + 1, [], _ :: _ => false
  | n + 1, p :: ps, [] => if p = '%' then sqlLikeF n ps [] else false
  | n + 1, p :: ps, t :: ts =>
    if p = '%' then sqlLikeF n ps (t :: ts) || sqlLikeF n (p :: ps) ts
    else if p = '_' then sqlLikeF n ps ts
    else (likeFold p == likeFold t) && sqlLikeF n ps ts

/-- SQLite's LIKE operator (as used by the WHERE clauses that
`Filter.__init__` generates): `%` matches any run of characters, `_` any
single character, and other characters match case-insensitively on
ASCII. -/
def sqlLike (pat txt : String) : Bool :=
  sqlLikeF (pat.data.length + txt.data.length + 1) pat.data txt.data

/-- Model of `_whitecard_to_like` (index.py lines 16-17): the chained
`str.replace` calls `% -> %%`, `_ -> __`, `* -> %`, `? -> _` compose to
this single character-wise substitution, because no earlier replacement
produces a character that a later replacement rewrites. -/
def whitecardChar (c : Char) : List Char :=
  if c = '%' then ['%', '%']
  else if c = '_' then ['_', '_']
  else if c = '*' then ['%']
  else if c = '?' then ['_']
  else [c]

def whitecard_to_like (wc : String) : String :=
  String.mk (wc.data.flatMap whitecardChar)

/-- The WHERE clause that `Filter.__init__` assembles, evaluated on one
`filePath` value: the OR of the include LIKE conditions (omitted when the
include list is empty), AND the conjunction of the negated exclude LIKE
conditions (omitted when the exclude list is empty); with no patterns at
all the clause is the constant TRUE. -/
def sqlWhere (f : Filter) (p : String) : Bool :=
  (f.includes.isEmpty || f.includes.any (fun pat => sqlLike (whitecard_to_like pat) p)) &&
  f.excludes.all (fun pat => !sqlLike (whitecard_to_like pat) p)

/-- Model of `Index.unique_hashes` (index.py lines 186-187):
`SELECT DISTINCT md5hash FROM entry WHERE {filter.sql}` as a set of
hashes of the rows whose filePath satisfies the generated WHERE clause. -/
def unique_hashes (es : List Entry) (f : Filter) : Finset String :=
  ((es.filter (fun e => sqlWhere f e.filePath)).map Entry.md5Hash).toFinset

/-- Written from the words of the spec for comparison with
`unique_hashes`: the set of distinct contentHash values among entries
whose filePath satisfies the filter's `test` predicate. -/
def uniqueHashesByTest (es : List Entry) (f : Filter) : Finset String :=
  ((es.filter (fun e => f.test e.filePath)).map Entry.md5Hash).toFinset

/-- C2 counterexample: for the filter compiled from the single include
pattern `a_b` and an index holding one entry with filePath `a_b` and hash
`h`, `unique_hashes` returns the empty set although the entry's path
satisfies `test`. `_whitecard_to_like` doubles the literal `_` into `__`,
but SQL LIKE has no doubling escape: `a__b` requires a four-character
path, so the three-character path `a_b` does not satisfy the WHERE clause,
while the fnmatch regex used by `test` matches it literally. -/
theorem unique_hashes_ne_test :
    unique_hashes [⟨"a_b", 1, "h"⟩] ⟨["a_b"], []⟩ ≠
      uniqueHashesByTest [⟨"a_b", 1, "h"⟩] ⟨["a_b"], []⟩ := by
  decide

/-- C2 amended: `unique_hashes` returns exactly the distinct hashes of the
entries whose filePath satisfies the SQL WHERE clause generated from the
filter (LIKE semantics after the whitecard translation), and this agrees
with the `test`-based set when the filter has no patterns at all. -/
theorem unique_hashes_sql_spec (es : List Entry) (f : Filter) :
    (∀ h, h ∈ unique_hashes es f ↔ ∃ e ∈ es, sqlWhere f e.filePath = true ∧ e.md5Hash = h) ∧
    unique_hashes es ⟨[], []⟩ = uniqueHashesByTest es ⟨[], []⟩ := by
  constructor
  · intro h
    simp [unique_hashes, List.mem_filter]
    constructor
    · rintro ⟨e, ⟨he, hw⟩, hh⟩
      exact ⟨e, he, hw, hh⟩
    · rintro ⟨e, he, hw, hh⟩
      exact ⟨e, ⟨he, hw⟩, hh⟩
  · have h1 : ∀ p, sqlWhere ⟨[], []⟩ p = true := by intro p; rfl
    have h2 : ∀ p, Filter.test ⟨[], []⟩ p = true := by intro p; rfl
    simp [unique_hashes, uniqueHashesByTest, h1, h2]

/-- Model of `Index.find_filepaths_for_hash` (index.py lines 189-192):
`SELECT filepath FROM entry WHERE md5hash = ?` in storage order. -/
def find_filepaths_for_hash (es : List Entry) (h : String) : List String :=
  (es.filter (fun e => e.md5Hash == h)).map Entry.filePath

/-- The set of hashes present in `right` but absent from `left` under the
filter, as computed by `eval_missing` before its size guard. -/
def missingHashes (left right : List Entry) (f : Filter) : Finset String :=
  unique_hashes right f \ unique_hashes left f

/-- Model of `eval_missing` (main module lines 80-93): compute the missing
hash set; if it holds more than 5000 hashes raise (`RuntimeError("Abort:
too many hashes")`, the spec's TooManyResultsError) without building any
mapping; otherwise map every missing hash to all its paths in `right`.
Python iterates the set in unspecified order; the model lists the hashes
in ascending order. -/
def eval_missing (left right : List Entry) (f : Filter) :
    Except String (List (String × List String)) :=
  let missing := missingHashes left right f
  if 5000 < missing.card then Except.error "Abort: too many hashes"
  else Except.ok ((missing.sort (· ≤ ·)).map (fun h => (h, find_filepaths_for_hash right h)))

/-- C3: when the missing set holds more than 5000 distinct hashes the
differ fails with the too-many-results error and produces no mapping;
with at most 5000 it returns the full mapping, whose keys are exactly the
missing hashes, each mapped to all of its paths in the right index. -/
theorem eval_missing_guard (left right : List Entry) (f : Filter) :
    (5000 < (missingHashes left right f).card →
      eval_missing left right f = Except.error "Abort: too many hashes") ∧
    ((missingHashes left right f).card ≤ 5000 →
      ∃ m, eval_missing left right f = Except.ok m ∧
        (m.map Prod.fst).toFinset = missingHashes left right f ∧
        ∀ pr ∈ m, pr.2 = find_filepaths_for_hash right pr.1) := by
  constructor
  · intro hgt
    rw [eval_missing, if_pos hgt]
  · intro hle
    refine ⟨_, by rw [eval_missing, if_neg (by omega)], ?_, ?_⟩
    · rw [List.map_map]
      have hcomp : (Prod.fst ∘ fun h => (h, find_filepaths_for_hash right h)) = id := rfl
      rw [hcomp, List.map_id, Finset.sort_toFinset]
    · intro pr hpr
      simp at hpr
      obtain ⟨h, _, hpr⟩ := hpr
      rw [← hpr]

/-- One row of the persistent `entry` table in the column order used by
`Index.add`'s tuple_getter: the dataclass fields `filePath`, `fileSize`,
`md5Hash`. -/
def entryRow (e : Entry) : String × Nat × String :=
  (e.filePath, e.fileSize, e.md5Hash)

/-- Model of `Index.add` (index.py lines 154-155): `INSERT INTO entry`
appends one row; no uniqueness check of any kind. -/
def storeAdd (s : List (String × Nat × String)) (e : Entry) : List (String × Nat × String) :=
  s ++ [entryRow e]

/-- Model of `Index.entries` / `_select_from` (index.py lines 65-71 and
183-184): `SELECT filepath, filesize, md5hash FROM entry` enumerates the
rows in storage order and `starmap(Entry, ...)` rebuilds an Entry from
each row. -/
def storeEntries (s : List (String × Nat × String)) : List Entry :=
  s.map (fun r => ⟨r.1, r.2.1, r.2.2⟩)

theorem storeEntries_foldl (es : List Entry) :
    ∀ acc, storeEntries (es.foldl storeAdd acc) = storeEntries acc ++ es := by
  induction es with
  | nil => intro acc; simp
  | cons e es ih =>
    intro acc
    rw [List.foldl_cons, ih]
    simp [storeAdd, storeEntries, entryRow]

/-- C8: entries added one by one to a freshly created store and then
enumerated through `entries()` yield exactly the same Entry list — every
`(filePath, fileSize, contentHash)` tuple byte-for-byte — in insertion
order. -/
theorem store_round_trip (es : List Entry) : storeEntries (es.foldl storeAdd []) = es := by
  rw [storeEntries_foldl]
  simp [storeEntries]

/-- Number of rows carrying a hash: the per-group `count(filepath)` of the
`GROUP BY md5hash` subquery in `Index.duplicates` /
`Index.duplicate_entries`. -/
def countHash (es : List Entry) (h : String) : Nat :=
  (es.filter (fun e => e.md5Hash == h)).length

/-- Kernel-evaluable lexicographic comparison of character lists, the
order in which SQLite's BINARY collation (and Python string comparison)
sorts the hex digest strings appearing here. -/
def charListLt : List Char → List Char → Bool
  | [], [] => false
  | [], _ :: _ => true
  | _ :: _, [] => false
  | a :: as, b :: bs => decide (a < b) || (a == b && charListLt as bs)

theorem charListLt_iff : ∀ a b : List Char, charListLt a b = true ↔ List.Lex (· < ·) a b := by
  intro a
  induction a with
  | nil =>
    intro b
    cases b with
    | nil => simp [charListLt]
    | cons c cs => simp [charListLt]; exact List.Lex.nil
  | cons a as ih =>
    intro b
    cases b with
    | nil => simp [charListLt]
    | cons c cs =>
      simp [charListLt]
      constructor
      · rintro (hlt | ⟨heq, hrec⟩)
        · exact List.Lex.rel hlt
        · subst heq
          exact List.Lex.cons ((ih cs).mp hrec)
      · intro h
        cases h with
        | cons h => exact Or.inr ⟨rfl, (ih cs).mpr h⟩
        | rel h => exact Or.inl h

theorem charListLt_iff_string (a b : String) : charListLt a.data b.data = true ↔ a < b := by
  rw [String.lt_iff_toList_lt]
  exact charListLt_iff a.data b.data

theorem charListLt_false_iff_le (a b : String) : charListLt b.data a.data = false ↔ a ≤ b := by
  rw [← not_lt, ← charListLt_iff_string b a]
  simp

/-- Comparison of entries by hash, the `ORDER BY md5hash` of the duplicate
queries (SQLite's default BINARY collation on the hex digest text). -/
def hashLe (a b : Entry) : Prop := a.md5Hash ≤ b.md5Hash

instance : DecidableRel hashLe := fun a b =>
  decidable_of_iff (charListLt b.md5Hash.data a.md5Hash.data = false)
    (charListLt_false_iff_le a.md5Hash b.md5Hash)

instance : IsTotal Entry hashLe := ⟨fun a b => le_total a.md5Hash b.md5Hash⟩

instance : IsTrans Entry hashLe := ⟨fun _ _ _ h1 h2 => le_trans h1 h2⟩

/-- The row stream common to `Index.duplicates` and
`Index.duplicate_entries`: all rows whose hash is carried by more than one
row (`HAVING count(filepath) > 1`), ordered by hash. The sort is stable,
modelling SQLite's index scan which yields equal hashes in rowid order. -/
def duplicateRows (es : List Entry) : List Entry :=
  List.insertionSort hashLe (es.filter (fun e => decide (1 < countHash es e.md5Hash)))

/-- Prepend one key-value pair to an already-grouped tail: it joins the
first group when the keys agree and opens a new group otherwise. -/
def groupConsFst {α : Type} (k : String) (v : α) : List (String × List α) → List (String × List α)
  | [] => [(k, [v])]
  | (k2, vs) :: gs => if k = k2 then (k, v :: vs) :: gs else (k, [v]) :: (k2, vs) :: gs

/-- Python `itertools.groupby`: split a pair list into runs of consecutive
equal first components, one `(key, values)` group per run. -/
def groupByFst {α : Type} : List (String × α) → List (String × List α)
  | [] => []
  | (k, v) :: rest => groupConsFst k v (groupByFst rest)

/-- One step of Python dict construction: a repeated key keeps its first
position but takes the latest value, a new key is appended. -/
def pyDictInsert {α : Type} (d : List (String × α)) (k : String) (v : α) : List (String × α) :=
  if d.any (fun kv => kv.1 == k) then
    d.map (fun kv => if kv.1 == k then (kv.1, v) else kv)
  else d ++ [(k, v)]

/-- A Python dict comprehension over a key-value sequence, as an
association list in Python's dict iteration order. -/
def pyDict {α : Type} (l : List (String × α)) : List (String × α) :=
  l.foldl (fun d kv => pyDictInsert d kv.1 kv.2) []

/-- Model of `Index.duplicates` (index.py lines 157-168): the duplicate
rows are selected as `(md5hash, filepath)` pairs ordered by hash, grouped
by `itemgetter(0)` (the hash), and collected into a dict mapping each hash
to its paths. -/
def duplicates (es : List Entry) : List (String × List String) :=
  pyDict (groupByFst ((duplicateRows es).map (fun e => (e.md5Hash, e.filePath))))

/-- Model of `Index.duplicate_entries` (index.py lines 170-181): the same
duplicate rows are selected as `(filepath, filesize, md5hash)` tuples
ordered by hash, but grouped by `itemgetter(0)` — which on this row shape
is the FILE PATH, not the hash — and collected into a dict whose values
are the rebuilt Entries. -/
def duplicate_entries (es : List Entry) : List (String × List Entry) :=
  pyDict (groupByFst ((duplicateRows es).map (fun e => (e.filePath, e))))

/-- C1 evaluated at the failing input: an index holding entries `a` and
`b` that share hash `h`. `duplicates()` groups them under the hash key
`h`, but `duplicate_entries()` — whose rows are `(filepath, filesize,
md5hash)` while the groupby key stayed `itemgetter(0)` — returns two
singleton groups keyed by the file paths `a` and `b` instead of the
hash-keyed grouping the spec describes. -/
theorem duplicate_entries_keyed_by_path :
    duplicates [⟨"a", 1, "h"⟩, ⟨"b", 2, "h"⟩] = [("h", ["a", "b"])] ∧
    duplicate_entries [⟨"a", 1, "h"⟩, ⟨"b", 2, "h"⟩] =
      [("a", [⟨"a", 1, "h"⟩]), ("b", [⟨"b", 2, "h"⟩])] := by
  decide

theorem groupByFst_flatten {α : Type} (l : List (String × α)) :
    (groupByFst l).flatMap (fun g => g.2.map (fun v => (g.1, v))) = l := by
  induction l with
  | nil => rfl
  | cons kv rest ih =>
    obtain ⟨k, v⟩ := kv
    rw [groupByFst]
    cases hg : groupByFst rest with
    | nil =>
      rw [hg] at ih
      simp at ih
      simp [groupConsFst, ih]
    | cons g2 gs =>
      obtain ⟨k2, vs2⟩ := g2
      rw [hg] at ih
      by_cases hk : k = k2
      · subst hk
        rw [groupConsFst, if_pos rfl]
        simp only [List.flatMap_cons, List.map_cons] at ih ⊢
        rw [← ih]
        simp
      · rw [groupConsFst, if_neg hk]
        simp only [List.flatMap_cons, List.map_cons] at ih ⊢
        rw [← ih]
        simp

theorem groupByFst_mem_val {α : Type} {l : List (String × α)} {k : String} {vs : List α}
    (hg : (k, vs) ∈ groupByFst l) {v : α} (hv : v ∈ vs) : (k, v) ∈ l := by
  rw [← groupByFst_flatten l]
  exact List.mem_flatMap.mpr ⟨(k, vs), hg, List.mem_map.mpr ⟨v, hv, rfl⟩⟩

theorem groupByFst_key_complete {α : Type} {l : List (String × α)} {k : String} {v : α}
    (h : (k, v) ∈ l) : k ∈ (groupByFst l).map Prod.fst := by
  rw [← groupByFst_flatten l] at h
  obtain ⟨g, hgmem, hin⟩ := List.mem_flatMap.mp h
  obtain ⟨w, _, heq⟩ := List.mem_map.mp hin
  have : g.1 = k := congrArg Prod.fst heq
  exact List.mem_map.mpr ⟨g, hgmem, this⟩

theorem groupByFst_val_ne_nil {α : Type} :
    ∀ {l : List (String × α)} {k : String} {vs : List α}, (k, vs) ∈ groupByFst l → vs ≠ [] := by
  intro l
  induction l with
  | nil => intro k vs h; simp [groupByFst] at h
  | cons kv rest ih =>
    intro k vs h
    obtain ⟨k0, v0⟩ := kv
    rw [groupByFst] at h
    cases hg : groupByFst rest with
    | nil =>
      rw [hg, groupConsFst] at h
      simp at h
      simp [h.2]
    | cons g2 gs =>
      obtain ⟨k2, vs2⟩ := g2
      rw [hg, groupConsFst] at h
      by_cases hk : k0 = k2
      · rw [if_pos hk] at h
        rcases List.mem_cons.mp h with h1 | h2
        · cases h1; simp
        · exact ih (hg ▸ List.mem_cons_of_mem _ h2)
      · rw [if_neg hk] at h
        rcases List.mem_cons.mp h with h1 | h2
        · cases h1; simp
        · exact ih (hg ▸ h2)

theorem groupByFst_head_key {α : Type} {l : List (String × α)} {k2 : String} {vs2 : List α}
    {gs : List (String × List α)} (h : groupByFst l = (k2, vs2) :: gs) :
    ∃ v2 rest2, l = (k2, v2) :: rest2 := by
  cases l with
  | nil => simp [groupByFst] at h
  | cons kv rest =>
    obtain ⟨k0, v0⟩ := kv
    rw [groupByFst] at h
    cases hg : groupByFst rest with
    | nil =>
      rw [hg, groupConsFst] at h
      injection h with h1 h2
      simp only [Prod.mk.injEq] at h1
      exact ⟨v0, rest, by rw [h1.1]⟩
    | cons g2 gs2 =>
      obtain ⟨k3, vs3⟩ := g2
      rw [hg, groupConsFst] at h
      by_cases hk : k0 = k3
      · rw [if_pos hk] at h
        injection h with h1 h2
        simp only [Prod.mk.injEq] at h1
        exact ⟨v0, rest, by rw [h1.1]⟩
      · rw [if_neg hk] at h
        injection h with h1 h2
        simp only [Prod.mk.injEq] at h1
        exact ⟨v0, rest, by rw [h1.1]⟩

theorem groupByFst_keys_sorted {α : Type} :
    ∀ {l : List (String × α)}, l.Pairwise (fun a b => a.1 ≤ b.1) →
      (groupByFst l).Pairwise (fun g g2 => g.1 < g2.1) := by
  intro l
  induction l with
  | nil => intro _; simp [groupByFst]
  | cons kv rest ih =>
    intro hp
    obtain ⟨k, v⟩ := kv
    rw [List.pairwise_cons] at hp
    obtain ⟨hle, hrest⟩ := hp
    rw [groupByFst]
    cases hg : groupByFst rest with
    | nil => simp [groupConsFst]
    | cons g2 gs =>
      obtain ⟨k2, vs2⟩ := g2
      have ihp := ih hrest
      rw [hg, List.pairwise_cons] at ihp
      obtain ⟨hk2lt, hgs⟩ := ihp
      obtain ⟨v2, rest2, hrest2⟩ := groupByFst_head_key hg
      have hkk2 : k ≤ k2 := by
        have hmem : (k2, v2) ∈ rest := by rw [hrest2]; exact List.mem_cons_self _ _
        exact hle _ hmem
      rw [groupConsFst]
      by_cases hk : k = k2
      · subst hk
        rw [if_pos rfl, List.pairwise_cons]
        exact ⟨hk2lt, hgs⟩
      · rw [if_neg hk, List.pairwise_cons]
        refine ⟨?_, List.pairwise_cons.mpr ⟨hk2lt, hgs⟩⟩
        intro g hgmem
        rcases List.mem_cons.mp hgmem with h1 | h2
        · rw [h1]
          exact lt_of_le_of_ne hkk2 hk
        · exact lt_trans (lt_of_le_of_ne hkk2 hk) (hk2lt g h2)

theorem sorted_head_key_not_in_rest {α : Type} {rest : List (String × α)} {k0 k2 : String}
    {vs2 : List α} {gs : List (String × List α)}
    (hrest : rest.Pairwise (fun a b => a.1 ≤ b.1))
    (hle : ∀ b ∈ rest, k0 ≤ b.1)
    (hg : groupByFst rest = (k2, vs2) :: gs)
    (hne : k0 ≠ k2) :
    ∀ w, (k0, w) ∉ rest := by
  obtain ⟨v2, rest2, hr⟩ := groupByFst_head_key hg
  subst hr
  intro w hw
  rcases List.mem_cons.mp hw with h1 | h2
  · exact hne (congrArg Prod.fst h1)
  · rw [List.pairwise_cons] at hrest
    have h21 : k2 ≤ k0 := hrest.1 _ h2
    have h12 : k0 ≤ k2 := hle _ (List.mem_cons_self _ _)
    exact hne (le_antisymm h12 h21)

theorem groupByFst_val_eq_filter {α : Type} :
    ∀ {l : List (String × α)}, l.Pairwise (fun a b => a.1 ≤ b.1) →
      ∀ {k : String} {vs : List α}, (k, vs) ∈ groupByFst l →
        vs = (l.filter (fun x => x.1 == k)).map Prod.snd := by
  intro l
  induction l with
  | nil => intro _ k vs h; simp [groupByFst] at h
  | cons kv rest ih =>
    intro hp k vs h
    obtain ⟨k0, v0⟩ := kv
    rw [List.pairwise_cons] at hp
    obtain ⟨hle, hrest⟩ := hp
    have hle2 : ∀ b ∈ rest, k0 ≤ b.1 := fun b hb => hle b hb
    rw [groupByFst] at h
    cases hg : groupByFst rest with
    | nil =>
      have hrnil : rest = [] := by
        have hfl := groupByFst_flatten rest
        rw [hg] at hfl
        simpa using hfl.symm
      rw [hg, groupConsFst] at h
      simp at h
      obtain ⟨hk, hvs⟩ := h
      subst hk
      subst hvs
      subst hrnil
      simp
    | cons g2 gs =>
      obtain ⟨k2, vs2⟩ := g2
      rw [hg, groupConsFst] at h
      have kp := groupByFst_keys_sorted hrest
      rw [hg, List.pairwise_cons] at kp
      obtain ⟨v2, rest2, hr2⟩ := groupByFst_head_key hg
      have hk0k2 : k0 ≤ k2 := by
        have hmem : (k2, v2) ∈ rest := by rw [hr2]; exact List.mem_cons_self _ _
        exact hle2 _ hmem
      by_cases hk0 : k0 = k2
      · rw [if_pos hk0] at h
        rcases List.mem_cons.mp h with h1 | h2
        · simp only [Prod.mk.injEq] at h1
          obtain ⟨hk, hvs⟩ := h1
          subst hk
          subst hvs
          rw [List.filter_cons_of_pos (by simp)]
          rw [List.map_cons]
          have hvs2 := ih hrest (hg ▸ List.mem_cons_self _ _)
          rw [hk0]
          rw [← hvs2]
        · have hmemr : (k, vs) ∈ groupByFst rest := hg ▸ List.mem_cons_of_mem _ h2
          have hvs := ih hrest hmemr
          have hk2k : k2 < k := kp.1 _ h2
          rw [List.filter_cons_of_neg ?_]
          · exact hvs
          · simp only [beq_iff_eq]
            intro he
            rw [hk0] at he
            exact absurd he (ne_of_lt hk2k)
      · rw [if_neg hk0] at h
        rcases List.mem_cons.mp h with h1 | h2
        · simp only [Prod.mk.injEq] at h1
          rw [h1.2, h1.1]
          rw [List.filter_cons_of_pos (by simp)]
          have hnone := sorted_head_key_not_in_rest hrest hle2 hg hk0
          have hfilnil : rest.filter (fun x => x.1 == k0) = [] := by
            rw [List.filter_eq_nil_iff]
            intro x hx hbeq
            rw [beq_iff_eq] at hbeq
            exact hnone x.2 (by rw [← hbeq]; exact hx)
          rw [hfilnil]
          simp
        · have hmemr : (k, vs) ∈ groupByFst rest := hg ▸ h2
          have hvs := ih hrest hmemr
          have hkne : k0 ≠ k := by
            intro he
            subst he
            rcases List.mem_cons.mp h2 with h3 | h4
            · exact hk0 (congrArg Prod.fst h3)
            · have := kp.1 _ h4
              exact absurd this (not_lt_of_le hk0k2)
          rw [List.filter_cons_of_neg ?_]
          · exact hvs
          · simp only [beq_iff_eq]
            exact fun he => hkne he

theorem pyDict_append_eq {α : Type} :
    ∀ (l acc : List (String × α)),
      ((acc ++ l).map Prod.fst).Nodup →
      l.foldl (fun d kv => pyDictInsert d kv.1 kv.2) acc = acc ++ l := by
  intro l
  induction l with
  | nil => intro acc _; simp
  | cons kv t ih =>
    intro acc hnd
    obtain ⟨k, v⟩ := kv
    rw [List.foldl_cons]
    have hnotin : ¬ acc.any (fun x => x.1 == k) = true := by
      intro hany
      obtain ⟨x, hx, hbeq⟩ := List.any_eq_true.mp hany
      rw [beq_iff_eq] at hbeq
      rw [List.map_append, List.nodup_append] at hnd
      have h1 : x.1 ∈ acc.map Prod.fst := List.mem_map.mpr ⟨x, hx, rfl⟩
      have h2 : x.1 ∈ ((k, v) :: t).map Prod.fst := by
        rw [hbeq]
        exact List.mem_cons_self _ _
      exact hnd.2.2 h1 h2
    have hins : pyDictInsert acc k v = acc ++ [(k, v)] := by
      rw [pyDictInsert, if_neg hnotin]
    show List.foldl (fun d kv => pyDictInsert d kv.1 kv.2) (pyDictInsert acc k v) t = _
    rw [hins]
    have hnd2 : (((acc ++ [(k, v)]) ++ t).map Prod.fst).Nodup := by
      rw [List.append_assoc]
      simpa using hnd
    have := ih (acc ++ [(k, v)]) hnd2
    rw [this, List.append_assoc]
    rfl

theorem pyDict_eq_self {α : Type} (l : List (String × α)) (h : (l.map Prod.fst).Nodup) :
    pyDict l = l := by
  have := pyDict_append_eq l [] (by simpa using h)
  simpa [pyDict] using this

theorem duplicateRows_sorted (es : List Entry) :
    ((duplicateRows es).map (fun e => (e.md5Hash, e.filePath))).Pairwise
      (fun a b => a.1 ≤ b.1) := by
  have hs : List.Sorted hashLe (duplicateRows es) :=
    List.sorted_insertionSort hashLe _
  exact List.Pairwise.map _ (fun a b h => h) hs

theorem duplicateRows_mem (es : List Entry) (e : Entry) :
    e ∈ duplicateRows es ↔ e ∈ es ∧ 1 < countHash es e.md5Hash := by
  rw [duplicateRows]
  rw [(List.perm_insertionSort hashLe _).mem_iff]
  simp [List.mem_filter]

/-- C5: `duplicates()` returns no group of fewer than 2 members; each
returned group holds exactly the filePaths of the entries carrying its
hash; every hash carried by at least two stored entries appears as a key;
and the keys are in ascending hash order. -/
theorem duplicates_spec (es : List Entry) :
    (∀ g ∈ duplicates es, 2 ≤ g.2.length ∧
      g.2.Perm ((es.filter (fun e => e.md5Hash == g.1)).map Entry.filePath)) ∧
    (∀ h, 2 ≤ countHash es h → h ∈ (duplicates es).map Prod.fst) ∧
    ((duplicates es).map Prod.fst).Pairwise (fun a b => a < b) := by
  have hpairs := duplicateRows_sorted es
  have hkeys := groupByFst_keys_sorted hpairs
  have hnodup : ((groupByFst ((duplicateRows es).map
      (fun e => (e.md5Hash, e.filePath)))).map Prod.fst).Nodup :=
    List.Pairwise.map Prod.fst (fun a b h => ne_of_lt h) hkeys
  have hdup_eq : duplicates es =
      groupByFst ((duplicateRows es).map (fun e => (e.md5Hash, e.filePath))) :=
    pyDict_eq_self _ hnodup
  refine ⟨?_, ?_, ?_⟩
  · rintro ⟨k, vs⟩ hg
    rw [hdup_eq] at hg
    have hvs := groupByFst_val_eq_filter hpairs hg
    have hfil : ((duplicateRows es).map (fun e => (e.md5Hash, e.filePath))).filter
        (fun x => x.1 == k) =
        ((duplicateRows es).filter (fun e => e.md5Hash == k)).map
          (fun e => (e.md5Hash, e.filePath)) := by
      rw [List.filter_map]
      rfl
    rw [hfil, List.map_map] at hvs
    have hvs2 : vs = ((duplicateRows es).filter (fun e => e.md5Hash == k)).map
        Entry.filePath := hvs
    have hcount : 1 < countHash es k := by
      have hne := groupByFst_val_ne_nil hg
      obtain ⟨v, hv⟩ := List.exists_mem_of_ne_nil vs hne
      have hvrow := groupByFst_mem_val hg hv
      obtain ⟨e, hemem, heq⟩ := List.mem_map.mp hvrow
      simp only [Prod.mk.injEq] at heq
      obtain ⟨hek, _⟩ := heq
      have := (duplicateRows_mem es e).mp hemem
      rw [hek] at this
      exact this.2
    have hperm : vs.Perm ((es.filter (fun e => e.md5Hash == k)).map Entry.filePath) := by
      rw [hvs2]
      refine List.Perm.map _ ?_
      have hp1 : ((duplicateRows es).filter (fun e => e.md5Hash == k)).Perm
          (((es.filter (fun e => decide (1 < countHash es e.md5Hash))).filter
            (fun e => e.md5Hash == k))) :=
        List.Perm.filter _ (List.perm_insertionSort hashLe _)
      refine hp1.trans ?_
      rw [List.filter_filter]
      rw [List.filter_congr ?_]
      intro e _
      cases hek : (e.md5Hash == k) with
      | false => simp
      | true =>
        rw [beq_iff_eq] at hek
        rw [hek]
        simp [hcount]
    constructor
    · have hlen : vs.length = countHash es k := by
        rw [hperm.length_eq, List.length_map]
        rfl
      rw [hlen]
      omega
    · exact hperm
  · intro h hcount
    have hpos : 0 < countHash es h := by omega
    rw [countHash, List.length_pos] at hpos
    obtain ⟨e, he⟩ := List.exists_mem_of_ne_nil _ hpos
    rw [List.mem_filter] at he
    obtain ⟨hees, hehash⟩ := he
    rw [beq_iff_eq] at hehash
    have hedup : e ∈ duplicateRows es := by
      rw [duplicateRows_mem]
      refine ⟨hees, ?_⟩
      rw [hehash]
      omega
    have hrow : (h, e.filePath) ∈ (duplicateRows es).map (fun e => (e.md5Hash, e.filePath)) :=
      List.mem_map.mpr ⟨e, hedup, by rw [hehash]⟩
    rw [hdup_eq]
    exact groupByFst_key_complete hrow
  · rw [hdup_eq]
    exact List.Pairwise.map Prod.fst (fun a b hab => hab) hkeys

/-- Witness for C5: in an index holding entries `a` and `b` with the
shared hash `h`, the hash `h` is carried by two entries and appears as a
key of `duplicates()`. -/
theorem duplicates_spec_witness :
    2 ≤ countHash [⟨"a", 1, "h"⟩, ⟨"b", 2, "h"⟩] "h" ∧
    "h" ∈ (duplicates [⟨"a", 1, "h"⟩, ⟨"b", 2, "h"⟩]).map Prod.fst :=
  ⟨by decide, (duplicates_spec [⟨"a", 1, "h"⟩, ⟨"b", 2, "h"⟩]).2.1 "h" (by decide)⟩

/-- Hash strings for the C3 witness: 5001 pairwise distinct strings. -/
def bigHashes : List String := (List.range 5001).map (fun i => String.mk (List.replicate i 'a'))

/-- A right-hand index carrying 5001 distinct hashes. -/
def bigIndex : List Entry := bigHashes.map (fun h => ⟨"p", 1, h⟩)

theorem bigHashes_nodup : bigHashes.Nodup := by
  refine List.Nodup.map ?_ (List.nodup_range 5001)
  intro i j hij
  have hlen := congrArg (fun s => s.data.length) hij
  simpa using hlen

theorem missingHashes_big : (missingHashes [] bigIndex ⟨[], []⟩).card = 5001 := by
  rw [missingHashes]
  have h0 : unique_hashes [] ⟨[], []⟩ = ∅ := rfl
  rw [h0, Finset.sdiff_empty, unique_hashes]
  have hf : bigIndex.filter (fun e => sqlWhere ⟨[], []⟩ e.filePath) = bigIndex :=
    List.filter_eq_self.mpr (fun a _ => rfl)
  rw [hf, bigIndex, List.map_map]
  have hid : (Entry.md5Hash ∘ fun h => (⟨"p", 1, h⟩ : Entry)) = id := rfl
  rw [hid, List.map_id]
  rw [List.toFinset_card_of_nodup bigHashes_nodup]
  simp [bigHashes]

/-- Witness for C3: with an empty left index and a right index carrying
5001 distinct hashes, the missing set exceeds the 5000 threshold and
`eval_missing` fails with the too-many-results error. -/
theorem eval_missing_guard_witness :
    eval_missing [] bigIndex ⟨[], []⟩ = Except.error "Abort: too many hashes" :=
  (eval_missing_guard [] bigIndex ⟨[], []⟩).1 (by rw [missingHashes_big]; omega)

/-- The character run after the last `/` of the path: `tail = p[i:]` in
`posixpath.split`, expressed as the run of non-separator characters at the
end of the list (takeWhile on the reversed list). -/
def charSplitTail (l : List Char) : List Char :=
  (l.reverse.takeWhile (fun c => !(c == '/'))).reverse

/-- The reversed raw head `p[:i]` of `posixpath.split` (everything up to
and including the last `/`). -/
def headRev0 (l : List Char) : List Char :=
  l.reverse.dropWhile (fun c => !(c == '/'))

/-- The reversed final head of `posixpath.split`: trailing separators are
stripped (`head.rstrip('/')`) unless the head is empty or consists only of
separators (`head != '/'*len(head)`). -/
def headRev (l : List Char) : List Char :=
  if (headRev0 l).isEmpty || (headRev0 l).all (fun c => c == '/') then headRev0 l
  else (headRev0 l).dropWhile (fun c => c == '/')

def charSplitHead (l : List Char) : List Char := (headRev l).reverse

/-- Model of `os.path.split` (POSIX): split at the last `/`. -/
def os_path_split (p : String) : String × String :=
  (String.mk (charSplitHead p.data), String.mk (charSplitTail p.data))

/-- Model of `os.path.dirname`: the head component of split. -/
def dirname (p : String) : String := (os_path_split p).1

/-- Model of `os.path.basename`: the tail component of split. -/
def basename (p : String) : String := (os_path_split p).2

/-- Fuelled model of `path_split_all` (main module lines 30-37), the
while-loop `path, name = os.path.split(path); if not path: return l;
l.append(path)`: split; when the head is empty return the accumulated
ancestor list, otherwise record the head and keep splitting it. `none`
means the loop has not returned within `fuel` iterations. -/
def path_split_all_fuel : Nat → String → Option (List String)
  | 0, _ => none
  | n + 1, p =>
    if (os_path_split p).1 = "" then some []
    else (path_split_all_fuel n (os_path_split p).1).map
      (fun l => (os_path_split p).1 :: l)

/-- Total wrapper used by the `eval_dir_dups` model. Whenever the Python
loop terminates, `length + 1` fuel suffices (`path_split_all_spec`), so
this equals the Python function there; on a path with an absolute root
the Python loop never returns (`path_split_all_spec` again) and this
wrapper defaults to `[]`. -/
def path_split_all (p : String) : List String :=
  (path_split_all_fuel (p.data.length + 1) p).getD []

/-- A path whose first character is the separator: a POSIX absolute
root. -/
def absPath (p : String) : Bool :=
  match p.data with
  | [] => false
  | c :: _ => c == '/'

theorem dropWhile_length_le {α : Type} (p : α → Bool) :
    ∀ l : List α, (l.dropWhile p).length ≤ l.length := by
  intro l
  induction l with
  | nil => simp
  | cons a t ih =>
    by_cases h : p a = true
    · rw [List.dropWhile_cons_of_pos h]
      simp
      omega
    · rw [List.dropWhile_cons_of_neg (by simp [h])]

theorem dropWhile_eq_self_of_length {α : Type} {p : α → Bool} :
    ∀ {l : List α}, (l.dropWhile p).length = l.length → l.dropWhile p = l := by
  intro l h
  cases l with
  | nil => rfl
  | cons a t =>
    by_cases hp : p a = true
    · rw [List.dropWhile_cons_of_pos hp] at h ⊢
      have := dropWhile_length_le p t
      simp at h
      omega
    · rw [List.dropWhile_cons_of_neg (by simp [hp])]

theorem headRev_suffix (l : List Char) : ∃ t, l.reverse = t ++ headRev l := by
  rw [headRev]
  split
  · exact ⟨l.reverse.takeWhile (fun c => !(c == '/')),
      (List.takeWhile_append_dropWhile _ _).symm⟩
  · refine ⟨l.reverse.takeWhile (fun c => !(c == '/')) ++
      (headRev0 l).takeWhile (fun c => c == '/'), ?_⟩
    rw [List.append_assoc, List.takeWhile_append_dropWhile]
    exact (List.takeWhile_append_dropWhile _ _).symm

theorem charSplitHead_decomp (l : List Char) : ∃ t, l = charSplitHead l ++ t := by
  obtain ⟨t, ht⟩ := headRev_suffix l
  refine ⟨t.reverse, ?_⟩
  have h2 := congrArg List.reverse ht
  rw [List.reverse_reverse, List.reverse_append] at h2
  exact h2

theorem headRev_whole {R : List Char} (hRne : R ≠ [])
    (h : (R.dropWhile (fun ch => !(ch == '/'))).dropWhile (fun ch => ch == '/') = R) :
    False := by
  have hle1 := dropWhile_length_le (fun ch => ch == '/') (R.dropWhile (fun ch => !(ch == '/')))
  have hle2 := dropWhile_length_le (fun ch => !(ch == '/')) R
  have hlenB := congrArg List.length h
  have hA : R.dropWhile (fun ch => !(ch == '/')) = R :=
    dropWhile_eq_self_of_length (by omega)
  rw [hA] at h
  cases hR : R with
  | nil => exact hRne hR
  | cons r0 rs =>
    rw [hR] at hA h
    by_cases hr0 : (r0 == '/') = true
    · have hstep : List.dropWhile (fun ch => ch == '/') (r0 :: rs) =
          List.dropWhile (fun ch => ch == '/') rs := List.dropWhile_cons_of_pos hr0
      rw [hstep] at h
      have h3 := congrArg List.length h
      have h4 := dropWhile_length_le (fun ch => ch == '/') rs
      simp only [List.length_cons] at h3
      omega
    · have hstep : List.dropWhile (fun ch => !(ch == '/')) (r0 :: rs) =
          List.dropWhile (fun ch => !(ch == '/')) rs :=
        List.dropWhile_cons_of_pos (by simp [hr0])
      rw [hstep] at hA
      have h3 := congrArg List.length hA
      have h4 := dropWhile_length_le (fun ch => !(ch == '/')) rs
      simp only [List.length_cons] at h3
      omega

theorem charSplitHead_lt {c : Char} {l2 : List Char} (hc : ¬ c = '/') :
    charSplitHead (c :: l2) = [] ∨ (charSplitHead (c :: l2)).length < (c :: l2).length := by
  obtain ⟨t, ht⟩ := charSplitHead_decomp (c :: l2)
  cases htn : t with
  | cons x xs =>
    right
    rw [htn] at ht
    have hlen := congrArg List.length ht
    simp only [List.length_append, List.length_cons] at hlen ⊢
    omega
  | nil =>
    exfalso
    rw [htn, List.append_nil] at ht
    have hrev : headRev (c :: l2) = (c :: l2).reverse := by
      have h2 := congrArg List.reverse ht
      rw [charSplitHead, List.reverse_reverse] at h2
      exact h2.symm
    rw [headRev] at hrev
    by_cases hcond :
        ((headRev0 (c :: l2)).isEmpty || (headRev0 (c :: l2)).all (fun ch => ch == '/')) = true
    · rw [if_pos hcond] at hrev
      rw [Bool.or_eq_true] at hcond
      rcases hcond with hemp | hall
      · rw [List.isEmpty_iff] at hemp
        rw [hemp] at hrev
        have h3 := congrArg List.length hrev
        simp at h3
      · rw [hrev, List.all_eq_true] at hall
        have h4 := hall c (List.mem_reverse.mpr (List.mem_cons_self _ _))
        rw [beq_iff_eq] at h4
        exact hc h4
    · rw [if_neg hcond] at hrev
      rw [headRev0] at hrev
      exact headRev_whole (by simp) hrev

theorem charSplitHead_abs (l2 : List Char) :
    ∃ l3, charSplitHead ('/' :: l2) = '/' :: l3 := by
  have hmem : '/' ∈ ('/' :: l2).reverse := List.mem_reverse.mpr (List.mem_cons_self _ _)
  have h0ne : headRev0 ('/' :: l2) ≠ [] := by
    rw [headRev0]
    intro hnil
    rw [List.dropWhile_eq_nil_iff] at hnil
    have := hnil _ hmem
    simp at this
  have hne : headRev ('/' :: l2) ≠ [] := by
    rw [headRev]
    split
    · exact h0ne
    · rename_i hcond
      intro hnil
      rw [List.dropWhile_eq_nil_iff] at hnil
      apply hcond
      rw [Bool.or_eq_true]
      exact Or.inr (List.all_eq_true.mpr hnil)
  obtain ⟨t, ht⟩ := charSplitHead_decomp ('/' :: l2)
  cases hH : charSplitHead ('/' :: l2) with
  | nil =>
    exfalso
    rw [charSplitHead, List.reverse_eq_nil_iff] at hH
    exact hne hH
  | cons h0 hr =>
    rw [hH] at ht
    have hinj : '/' = h0 := by
      have := ht
      simp only [List.cons_append, List.cons.injEq] at this
      exact this.1
    exact ⟨hr, by rw [hinj]⟩

theorem path_split_all_fuel_terminates :
    ∀ n (p : String), p.data.length < n → absPath p = false →
      (path_split_all_fuel n p).isSome = true := by
  intro n
  induction n with
  | zero => intro p h _; omega
  | succ n ih =>
    intro p hlen habs
    rw [path_split_all_fuel]
    by_cases hh : (os_path_split p).1 = ""
    · rw [if_pos hh]
      rfl
    · rw [if_neg hh]
      cases hpd : p.data with
      | nil =>
        exfalso
        apply hh
        show String.mk (charSplitHead p.data) = ""
        rw [hpd]
        rfl
      | cons c l2 =>
        have hc : ¬ c = '/' := by
          have he : absPath p = (c == '/') := by rw [absPath, hpd]
          rw [he] at habs
          simpa using habs
        rcases @charSplitHead_lt c l2 hc with h0 | hlt
        · exfalso
          apply hh
          show String.mk (charSplitHead p.data) = ""
          rw [hpd, h0]
        · rw [hpd] at hlen
          have hlen2 : (os_path_split p).1.data.length < n := by
            show (charSplitHead p.data).length < n
            rw [hpd]
            simp only [List.length_cons] at hlt hlen ⊢
            omega
          have habs3 : absPath (os_path_split p).1 = false := by
            obtain ⟨t, ht⟩ := charSplitHead_decomp (c :: l2)
            cases hH : charSplitHead (c :: l2) with
            | nil =>
              exfalso
              apply hh
              show String.mk (charSplitHead p.data) = ""
              rw [hpd, hH]
            | cons h0 hr =>
              rw [hH] at ht
              have hc0 : c = h0 := by
                simp only [List.cons_append, List.cons.injEq] at ht
                exact ht.1
              have hdata : (os_path_split p).1.data = h0 :: hr := by
                show charSplitHead p.data = h0 :: hr
                rw [hpd, hH]
              have he2 : absPath (os_path_split p).1 = (h0 == '/') := by
                rw [absPath, hdata]
              rw [he2, ← hc0]
              simpa using hc
          have hrec := ih (os_path_split p).1 hlen2 habs3
          cases hr2 : path_split_all_fuel n (os_path_split p).1 with
          | none => rw [hr2] at hrec; simp at hrec
          | some l => rfl

theorem path_split_all_fuel_abs :
    ∀ n (p : String), absPath p = true → path_split_all_fuel n p = none := by
  intro n
  induction n with
  | zero => intro p _; rfl
  | succ n ih =>
    intro p habs
    cases hpd : p.data with
    | nil =>
      exfalso
      have he : absPath p = false := by rw [absPath, hpd]
      rw [he] at habs
      exact Bool.false_ne_true habs
    | cons c l2 =>
      have hc : c = '/' := by
        have he : absPath p = (c == '/') := by rw [absPath, hpd]
        rw [he] at habs
        exact beq_iff_eq.mp habs
      subst hc
      obtain ⟨l3, h3⟩ := charSplitHead_abs l2
      rw [path_split_all_fuel]
      have hne : ¬ (os_path_split p).1 = "" := by
        intro he
        have hdat : charSplitHead p.data = [] := by
          have := congrArg String.data he
          simpa using this
        rw [hpd, h3] at hdat
        cases hdat
      rw [if_neg hne]
      have habs2 : absPath (os_path_split p).1 = true := by
        have hdata : (os_path_split p).1.data = '/' :: l3 := by
          show charSplitHead p.data = '/' :: l3
          rw [hpd, h3]
        rw [absPath, hdata]
        rfl
      rw [ih _ habs2]
      rfl

/-- Join path segments with the `/` separator (the layout of the relative
filePaths that the scanner stores). -/
def joinSegs : List String → String
  | [] => ""
  | [s] => s
  | s :: rest => s ++ "/" ++ joinSegs rest

/-- Written from the words of the claim: the proper ancestor directories
of a segment path, from the immediate parent up to the top-level segment
(the reversed list of joins of the proper non-empty segment runs without
the final segment). -/
def prefixJoins : List String → List String
  | [] => []
  | s :: rest => s :: (prefixJoins rest).map (fun q => s ++ "/" ++ q)

def properAncestors (segs : List String) : List String :=
  (prefixJoins segs.dropLast).reverse

theorem takeWhile_append_middle {p : Char → Bool} :
    ∀ (xs : List Char) {y : Char} (ys : List Char), (∀ x ∈ xs, p x = true) → p y = false →
      (xs ++ y :: ys).takeWhile p = xs := by
  intro xs
  induction xs with
  | nil =>
    intro y ys _ hy
    simp only [List.nil_append]
    exact List.takeWhile_cons_of_neg (by simp [hy])
  | cons x xt ih =>
    intro y ys hall hy
    have hx : p x = true := hall x (List.mem_cons_self _ _)
    simp only [List.cons_append]
    rw [List.takeWhile_cons_of_pos hx, ih ys (fun a ha => hall a (List.mem_cons_of_mem _ ha)) hy]

theorem dropWhile_append_middle {p : Char → Bool} :
    ∀ (xs : List Char) {y : Char} (ys : List Char), (∀ x ∈ xs, p x = true) → p y = false →
      (xs ++ y :: ys).dropWhile p = y :: ys := by
  intro xs
  induction xs with
  | nil =>
    intro y ys _ hy
    simp only [List.nil_append]
    exact List.dropWhile_cons_of_neg (by simp [hy])
  | cons x xt ih =>
    intro y ys hall hy
    have hx : p x = true := hall x (List.mem_cons_self _ _)
    simp only [List.cons_append]
    rw [List.dropWhile_cons_of_pos hx]
    exact ih ys (fun a ha => hall a (List.mem_cons_of_mem _ ha)) hy

theorem takeWhile_all {p : Char → Bool} :
    ∀ (l : List Char), (∀ x ∈ l, p x = true) → l.takeWhile p = l := by
  intro l
  induction l with
  | nil => intro _; rfl
  | cons x xt ih =>
    intro hall
    rw [List.takeWhile_cons_of_pos (hall x (List.mem_cons_self _ _))]
    rw [ih (fun a ha => hall a (List.mem_cons_of_mem _ ha))]

theorem charSplit_append (s u : List Char) (hu : ∀ x ∈ u, ¬ x = '/')
    (hlast : ∃ s1 c, s = s1 ++ [c] ∧ ¬ c = '/') :
    charSplitHead (s ++ '/' :: u) = s ∧ charSplitTail (s ++ '/' :: u) = u := by
  obtain ⟨s1, clast, hseq, hcl⟩ := hlast
  have hrev : (s ++ '/' :: u).reverse = u.reverse ++ '/' :: (clast :: s1.reverse) := by
    rw [hseq, List.reverse_append, List.reverse_append]
    simp
  have hallu : ∀ x ∈ u.reverse, (fun c => !(c == '/')) x = true := by
    intro x hx
    have := hu x (List.mem_reverse.mp hx)
    simpa using this
  have hslash : (fun c => !(c == '/')) '/' = false := by simp
  have h0 : headRev0 (s ++ '/' :: u) = '/' :: clast :: s1.reverse := by
    rw [headRev0, hrev]
    exact dropWhile_append_middle u.reverse _ hallu hslash
  constructor
  · rw [charSplitHead, headRev, h0]
    have hcond : ¬ ((('/' :: clast :: s1.reverse).isEmpty ||
        ('/' :: clast :: s1.reverse).all (fun c => c == '/')) = true) := by
      simp [hcl]
    rw [if_neg hcond]
    have hd1 : List.dropWhile (fun c => c == '/') ('/' :: clast :: s1.reverse) =
        clast :: s1.reverse := by
      rw [List.dropWhile_cons_of_pos (by simp)]
      exact List.dropWhile_cons_of_neg (by simp [hcl])
    rw [hd1, List.reverse_cons, List.reverse_reverse, ← hseq]
  · rw [charSplitTail, hrev]
    rw [takeWhile_append_middle u.reverse _ hallu hslash, List.reverse_reverse]

theorem charSplit_single (u : List Char) (hu : ∀ x ∈ u, ¬ x = '/') :
    charSplitHead u = [] ∧ charSplitTail u = u := by
  have hallu : ∀ x ∈ u.reverse, (fun c => !(c == '/')) x = true := by
    intro x hx
    have := hu x (List.mem_reverse.mp hx)
    simpa using this
  have h0 : headRev0 u = [] := by
    rw [headRev0, List.dropWhile_eq_nil_iff]
    exact hallu
  constructor
  · rw [charSplitHead, headRev, h0]
    rw [if_pos (by simp)]
    rfl
  · rw [charSplitTail, takeWhile_all u.reverse hallu, List.reverse_reverse]

theorem joinSegs_concat : ∀ (init : List String) (t : String), init ≠ [] →
    joinSegs (init ++ [t]) = joinSegs init ++ "/" ++ t := by
  intro init
  induction init with
  | nil => intro t h; exact absurd rfl h
  | cons x xt ih =>
    intro t _
    cases hxt : xt with
    | nil => rfl
    | cons y yt =>
      have hrec := ih t (by rw [hxt]; exact List.cons_ne_nil _ _)
      rw [hxt] at hrec
      show x ++ "/" ++ joinSegs ((y :: yt) ++ [t]) = (x ++ "/" ++ joinSegs (y :: yt)) ++ "/" ++ t
      rw [hrec]
      apply String.ext
      simp [String.data_append, List.append_assoc]

theorem joinSegs_valid :
    ∀ (segs : List String), (∀ s ∈ segs, s.data ≠ [] ∧ '/' ∉ s.data) → segs ≠ [] →
      ∃ s1 c, (joinSegs segs).data = s1 ++ [c] ∧ ¬ c = '/' := by
  intro segs
  induction segs with
  | nil => intro _ h; exact absurd rfl h
  | cons x xt ih =>
    intro hval _
    cases hxt : xt with
    | nil =>
      obtain ⟨hxne, hxs⟩ := hval x (List.mem_cons_self _ _)
      rcases List.eq_nil_or_concat x.data with h | ⟨L, b, hLb⟩
      · exact absurd h hxne
      · rw [List.concat_eq_append] at hLb
        refine ⟨L, b, ?_, ?_⟩
        · show x.data = L ++ [b]
          exact hLb
        · intro hb
          apply hxs
          rw [hLb, hb]
          exact List.mem_append_right _ (List.mem_cons_self _ _)
    | cons y yt =>
      have hvt : ∀ s ∈ xt, s.data ≠ [] ∧ '/' ∉ s.data :=
        fun s hs => hval s (List.mem_cons_of_mem _ hs)
      rw [hxt] at hvt
      obtain ⟨s1, c, hc, hcs⟩ := ih (by rw [hxt]; exact hvt) (by rw [hxt]; exact List.cons_ne_nil _ _)
      rw [hxt] at hc
      refine ⟨(x ++ "/").data ++ s1, c, ?_, hcs⟩
      show (x ++ "/" ++ joinSegs (y :: yt)).data = (x ++ "/").data ++ s1 ++ [c]
      rw [String.data_append, hc, List.append_assoc]

theorem prefixJoins_concat : ∀ (l : List String), l ≠ [] →
    prefixJoins l = prefixJoins l.dropLast ++ [joinSegs l] := by
  intro l
  induction l with
  | nil => intro h; exact absurd rfl h
  | cons x xt ih =>
    intro _
    cases hxt : xt with
    | nil => rfl
    | cons y yt =>
      have hrec := ih (by rw [hxt]; exact List.cons_ne_nil _ _)
      rw [hxt] at hrec
      show x :: (prefixJoins (y :: yt)).map (fun q => x ++ "/" ++ q) =
        prefixJoins ((x :: y :: yt).dropLast) ++ [joinSegs (x :: y :: yt)]
      rw [hrec, List.map_append]
      have hdl : (x :: y :: yt).dropLast = x :: (y :: yt).dropLast := rfl
      rw [hdl]
      show x :: ((prefixJoins ((y :: yt).dropLast)).map (fun q => x ++ "/" ++ q) ++
          [x ++ "/" ++ joinSegs (y :: yt)]) =
        (x :: (prefixJoins ((y :: yt).dropLast)).map (fun q => x ++ "/" ++ q)) ++
          [joinSegs (x :: y :: yt)]
      rfl

theorem path_split_all_fuel_join :
    ∀ n (segs : List String), (∀ s ∈ segs, s.data ≠ [] ∧ '/' ∉ s.data) → segs ≠ [] →
      (joinSegs segs).data.length < n →
      path_split_all_fuel n (joinSegs segs) = some (properAncestors segs) := by
  intro n
  induction n with
  | zero => intro segs _ _ h; omega
  | succ n ih =>
    intro segs hval hne hlen
    rcases List.eq_nil_or_concat segs with h | ⟨init, t, hseq⟩
    · exact absurd h hne
    · rw [List.concat_eq_append] at hseq
      subst hseq
      have hvt := hval t (List.mem_append_right _ (List.mem_cons_self _ _))
      have hut : ∀ x ∈ t.data, ¬ x = '/' := fun x hx he => hvt.2 (he ▸ hx)
      cases hinit : init with
      | nil =>
        simp only [List.nil_append] at *
        rw [path_split_all_fuel]
        have hsingle := charSplit_single t.data hut
        have hh : (os_path_split (joinSegs [t])).1 = "" := by
          show String.mk (charSplitHead t.data) = ""
          rw [hsingle.1]
        rw [if_pos hh]
        rfl
      | cons i0 ir =>
        have hinitne : init ≠ [] := by rw [hinit]; exact List.cons_ne_nil _ _
        rw [← hinit] at *
        have hvinit : ∀ s ∈ init, s.data ≠ [] ∧ '/' ∉ s.data :=
          fun s hs => hval s (List.mem_append_left _ hs)
        have hjoin := joinSegs_concat init t hinitne
        have hvalid := joinSegs_valid init hvinit hinitne
        have hdata : (joinSegs (init ++ [t])).data = (joinSegs init).data ++ '/' :: t.data := by
          rw [hjoin, String.data_append, String.data_append]
          simp [List.append_assoc]
        have hsplit := charSplit_append (joinSegs init).data t.data hut hvalid
        have hos1 : (os_path_split (joinSegs (init ++ [t]))).1 = joinSegs init := by
          show String.mk (charSplitHead (joinSegs (init ++ [t])).data) = joinSegs init
          rw [hdata, hsplit.1]
        rw [path_split_all_fuel, hos1]
        have hjne : ¬ (joinSegs init : String) = "" := by
          intro he
          obtain ⟨s1, c, hc, _⟩ := hvalid
          rw [he] at hc
          have h2 : ([] : List Char) = s1 ++ [c] := hc
          exact absurd h2.symm (by simp)
        rw [if_neg hjne]
        have hlen2 : (joinSegs init).data.length < n := by
          have h3 := congrArg List.length hdata
          simp only [List.length_append, List.length_cons] at h3
          omega
        rw [ih init hvinit hinitne hlen2]
        have hpa : properAncestors (init ++ [t]) = joinSegs init :: properAncestors init := by
          rw [properAncestors, properAncestors, List.dropLast_concat]
          rw [prefixJoins_concat init hinitne, List.reverse_append]
          rfl
        rw [hpa]
        rfl

/-- C10: the ancestor walk of the Directory Aggregator terminates on every
relative path string — `length + 1` fuel always suffices — and on a
cleanly joined relative segment path it returns exactly the proper
ancestor directories, from the immediate parent up to the top-level
segment; this is why the `eval_dir_dups` model, whose `path_split_all`
runs with exactly that fuel, is total on indexes of relative filePaths.
A filePath with an absolute root makes the Python while-loop split `/`
into head `/` forever: no amount of fuel produces a result. -/
theorem path_split_all_spec :
    (∀ segs : List String, (∀ s ∈ segs, s.data ≠ [] ∧ '/' ∉ s.data) → segs ≠ [] →
      path_split_all (joinSegs segs) = properAncestors segs) ∧
    (∀ p : String, absPath p = false →
      (path_split_all_fuel (p.data.length + 1) p).isSome = true) ∧
    (∀ fuel (p : String), absPath p = true → path_split_all_fuel fuel p = none) := by
  refine ⟨?_, ?_, ?_⟩
  · intro segs hval hne
    rw [path_split_all,
      path_split_all_fuel_join ((joinSegs segs).data.length + 1) segs hval hne (by omega)]
    rfl
  · intro p habs
    exact path_split_all_fuel_terminates (p.data.length + 1) p (by omega) habs
  · intro fuel p habs
    exact path_split_all_fuel_abs fuel p habs

/-- Witness for C10 at concrete inputs: the relative segment path `a/b`
yields the single proper ancestor `a`; splitting the relative path
`a/b/c.txt` terminates within `length + 1` fuel; the absolute path `/a/b`
gives no result at any fuel, here checked at fuel 7. -/
theorem path_split_all_spec_witness :
    path_split_all (joinSegs ["a", "b"]) = properAncestors ["a", "b"] ∧
    (path_split_all_fuel ("a/b/c.txt".data.length + 1) "a/b/c.txt").isSome = true ∧
    path_split_all_fuel 7 "/a/b" = none :=
  ⟨path_split_all_spec.1 ["a", "b"] (by decide) (by decide),
   path_split_all_spec.2.1 "a/b/c.txt" (by decide),
   path_split_all_spec.2.2 7 "/a/b" (by decide)⟩

/-- The `os.path.basename(...).lower() != "thumbs.db"` noise filter of
`eval_dir_dups` (ASCII lower-casing models Python `str.lower` on these
ASCII file names). -/
def notThumbs (p : String) : Bool :=
  !(String.mk ((basename p).data.map Char.toLower) == "thumbs.db")

/-- The ordered stream of `d[pathPart].update(entry.md5Hash)` events
produced by the first loop of `eval_dir_dups`. -/
def dirUpdates (es : List Entry) : List (String × String) :=
  es.flatMap (fun e =>
    if notThumbs e.filePath then
      (path_split_all e.filePath).map (fun dir => (dir, e.md5Hash))
    else [])

/-- One update of the `defaultdict(hashlib.md5)`: the running digest is
modelled by the concatenation of the strings fed into it (module
docstring); a new key starts a fresh digest at the end of the dict
(Python dict insertion order). -/
def addUpdate (d : List (String × String)) (u : String × String) : List (String × String) :=
  if d.any (fun kv => kv.1 == u.1) then
    d.map (fun kv => if kv.1 == u.1 then (kv.1, kv.2 ++ u.2) else kv)
  else d ++ [u]

/-- The finalized composite hash per directory path (`hexdigest` of each
running digest), keyed by directory path in first-touch order. -/
def dirHashes (es : List Entry) : List (String × String) :=
  (dirUpdates es).foldl addUpdate []

/-- Python `dict.get` on the association list. -/
def lookupStr (d : List (String × String)) (k : String) : Option String :=
  (d.find? (fun kv => kv.1 == k)).map Prod.snd

/-- Model of `has_parent_with_same_hash` (main module lines 39-45): a
non-empty dirname whose recorded composite hash equals this directory's
hash. -/
def has_parent_with_same_hash (p h : String) (d : List (String × String)) : Bool :=
  if dirname p ≠ "" then lookupStr d (dirname p) == some h else false

/-- The `filter single sub-folders` step of `eval_dir_dups`. -/
def prunedDirs (es : List Entry) : List (String × String) :=
  (dirHashes es).filter (fun kv => !(has_parent_with_same_hash kv.1 kv.2 (dirHashes es)))

/-- `sorted(d.items(), key=itemgetter(1))` comparison: by the hash
component. -/
def itemHashLe (a b : String × String) : Prop := a.2 ≤ b.2

instance : DecidableRel itemHashLe := fun a b =>
  decidable_of_iff (charListLt b.2.data a.2.data = false) (charListLt_false_iff_le a.2 b.2)

instance : IsTotal (String × String) itemHashLe := ⟨fun a b => le_total a.2 b.2⟩

instance : IsTrans (String × String) itemHashLe := ⟨fun _ _ _ h1 h2 => le_trans h1 h2⟩

/-- Model of `eval_dir_dups` (main module lines 48-77): build the
composite hash of every ancestor directory, drop each directory whose
immediate parent carries the same composite hash, sort the remaining
(path, hash) items by hash, group by hash, keep the groups with more than
one path and collect them into a dict. -/
def eval_dir_dups (es : List Entry) : List (String × List String) :=
  pyDict ((groupByFst ((List.insertionSort itemHashLe (prunedDirs es)).map
    (fun kv => (kv.2, kv.1)))).filter (fun g => 1 < g.2.length))

theorem addUpdate_keys (d : List (String × String)) (u : String × String) :
    (addUpdate d u).map Prod.fst =
      if d.any (fun kv => kv.1 == u.1) then d.map Prod.fst else d.map Prod.fst ++ [u.1] := by
  rw [addUpdate]
  split
  · rw [List.map_map]
    apply List.map_congr_left
    intro kv _
    simp only [Function.comp]
    split <;> rfl
  · simp

theorem foldl_addUpdate_keys_nodup :
    ∀ (ups : List (String × String)) (d : List (String × String)),
      (d.map Prod.fst).Nodup → ((ups.foldl addUpdate d).map Prod.fst).Nodup := by
  intro ups
  induction ups with
  | nil => intro d h; exact h
  | cons u ut ih =>
    intro d hnd
    rw [List.foldl_cons]
    apply ih
    rw [addUpdate_keys]
    split
    · exact hnd
    · rename_i hany
      rw [List.nodup_append]
      refine ⟨hnd, List.nodup_singleton _, ?_⟩
      intro x hx hx2
      simp at hx2
      subst hx2
      apply hany
      rw [List.any_eq_true]
      obtain ⟨kv, hkv, hfst⟩ := List.mem_map.mp hx
      exact ⟨kv, hkv, by rw [hfst]; simp⟩

theorem dirHashes_keys_nodup (es : List Entry) : ((dirHashes es).map Prod.fst).Nodup :=
  foldl_addUpdate_keys_nodup (dirUpdates es) [] (by simp)

theorem lookupStr_eq_of_mem :
    ∀ {d : List (String × String)}, (d.map Prod.fst).Nodup → ∀ {k v}, (k, v) ∈ d →
      lookupStr d k = some v := by
  intro d
  induction d with
  | nil => intro _ k v h; simp at h
  | cons x t ih =>
    intro hnd k v hm
    rw [List.map_cons, List.nodup_cons] at hnd
    by_cases hx : (x.1 == k) = true
    · rcases List.mem_cons.mp hm with h1 | h2
      · have hfind : List.find? (fun kv => kv.1 == k) (x :: t) = some x :=
          List.find?_cons_of_pos _ hx
        rw [lookupStr, hfind, ← h1]
        rfl
      · exfalso
        apply hnd.1
        rw [beq_iff_eq] at hx
        rw [hx]
        exact List.mem_map.mpr ⟨(k, v), h2, rfl⟩
    · rcases List.mem_cons.mp hm with h1 | h2
      · exfalso
        apply hx
        rw [← h1]
        simp
      · have hfind : List.find? (fun kv => kv.1 == k) (x :: t) =
            List.find? (fun kv => kv.1 == k) t := List.find?_cons_of_neg _ hx
        rw [lookupStr, hfind]
        exact ih hnd.2 h2

theorem pyDictInsert_mem {α : Type} {d : List (String × α)} {k : String} {v : α} {x : String × α}
    (hx : x ∈ pyDictInsert d k v) : x ∈ d ∨ x = (k, v) := by
  rw [pyDictInsert] at hx
  split at hx
  · obtain ⟨kv, hkv, heq⟩ := List.mem_map.mp hx
    by_cases hb : (kv.1 == k) = true
    · rw [if_pos hb] at heq
      right
      rw [beq_iff_eq] at hb
      rw [← heq, hb]
    · rw [if_neg hb] at heq
      left
      rw [← heq]
      exact hkv
  · rcases List.mem_append.mp hx with h1 | h2
    · exact Or.inl h1
    · right
      simpa using h2

theorem pyDict_foldl_mem {α : Type} :
    ∀ (l acc : List (String × α)) (x : String × α),
      x ∈ l.foldl (fun d kv => pyDictInsert d kv.1 kv.2) acc → x ∈ acc ∨ x ∈ l := by
  intro l
  induction l with
  | nil => intro acc x h; exact Or.inl h
  | cons kv t ih =>
    intro acc x h
    rw [List.foldl_cons] at h
    rcases ih _ x h with h1 | h2
    · rcases pyDictInsert_mem h1 with h3 | h3
      · exact Or.inl h3
      · right
        rw [h3]
        exact List.mem_cons_self _ _
    · exact Or.inr (List.mem_cons_of_mem _ h2)

theorem pyDict_mem {α : Type} {l : List (String × α)} {x : String × α}
    (hx : x ∈ pyDict l) : x ∈ l := by
  rcases pyDict_foldl_mem l [] x hx with h | h
  · simp at h
  · exact h

/-- C6: a directory `C` whose immediate parent exists and carries the same
composite hash — exactly the situation of a parent holding the single
child directory `C` and no other content, where both running digests see
the same update stream — is dropped by the parent-pruning step, so `C`
appears in no group of the Aggregator's duplicate report: of such a
parent-child pair only the parent can be reported. -/
theorem dir_parent_pruning (es : List Entry) (C : String)
    (hmem : C ∈ (dirHashes es).map Prod.fst)
    (hpar : dirname C ≠ "")
    (hsame : lookupStr (dirHashes es) (dirname C) = lookupStr (dirHashes es) C) :
    ∀ g ∈ eval_dir_dups es, C ∉ g.2 := by
  intro g hg hCg
  obtain ⟨kv, hkv, hfst⟩ := List.mem_map.mp hmem
  have hnd := dirHashes_keys_nodup es
  have hCkv : (C, kv.2) ∈ dirHashes es := by
    rw [← hfst]
    exact hkv
  have hlook : lookupStr (dirHashes es) C = some kv.2 := lookupStr_eq_of_mem hnd hCkv
  have hhp : has_parent_with_same_hash C kv.2 (dirHashes es) = true := by
    rw [has_parent_with_same_hash, if_pos hpar, hsame, hlook]
    simp
  have hg2 := pyDict_mem hg
  rw [List.mem_filter] at hg2
  obtain ⟨hggrp, _⟩ := hg2
  have hpair : (g.1, C) ∈ (List.insertionSort itemHashLe (prunedDirs es)).map
      (fun kv => (kv.2, kv.1)) := groupByFst_mem_val hggrp hCg
  obtain ⟨kv2, hkv2, heq2⟩ := List.mem_map.mp hpair
  simp only [Prod.mk.injEq] at heq2
  have hkv2s : kv2 ∈ prunedDirs es :=
    (List.perm_insertionSort itemHashLe (prunedDirs es)).mem_iff.mp hkv2
  rw [prunedDirs, List.mem_filter] at hkv2s
  obtain ⟨hkv2d, hkv2f⟩ := hkv2s
  have hkv2C : kv2.1 = C := heq2.2
  have hv2 : kv2.2 = kv.2 := by
    have h1 : lookupStr (dirHashes es) C = some kv2.2 := by
      apply lookupStr_eq_of_mem hnd
      rw [← hkv2C]
      exact hkv2d
    rw [hlook] at h1
    exact (Option.some.inj h1).symm
  have hcontr : has_parent_with_same_hash kv2.1 kv2.2 (dirHashes es) = true := by
    rw [hkv2C, hv2]
    exact hhp
  rw [hcontr] at hkv2f
  simp at hkv2f

/-- Witness for C6 at a concrete index: the root directory `P` holds the
single child directory `C` with one file inside, so `P/C` and `P` carry
the same composite hash; the pruning hypothesis holds and `P/C` appears in
no group of the report. -/
theorem dir_parent_pruning_witness :
    (eval_dir_dups [⟨"P/C/x.txt", 5, "h1"⟩]).all
      (fun g => !(g.2.contains "P/C")) = true := by
  have h := dir_parent_pruning [⟨"P/C/x.txt", 5, "h1"⟩] "P/C" (by decide) (by decide) (by decide)
  rw [List.all_eq_true]
  intro g hg
  have h2 := h g hg
  simpa using h2

/-- A filesystem subtree as the scanner sees it through `os.scandir`:
directory entries in enumeration order. A file carries the md5 hexdigest
that streaming its bytes would produce (`Index.entry_for_path`), or
`none` when reading the file raises an IOError. -/
inductive Fs where
  | file (name : String) (size : Nat) (content : Option String)
  | dir (name : String) (children : List Fs)

def fsName : Fs → String
  | .file n _ _ => n
  | .dir n _ => n

/-- The root-relative path stored in an Entry: `os.path.relpath(entry.path,
root)` for a scan entry whose parent directory is at relative path `rel`
under the root. -/
def joinRel (rel n : String) : String := if rel = "" then n else rel ++ "/" ++ n

/-- Model of the recursive `index_dir` closure of the `index` command
(main module lines 203-222): iterate the directory entries in order; the
filter is evaluated on the entry's full path before the entry's kind is
examined; a rejected entry is skipped entirely (in particular a rejected
directory is not descended into); an accepted file is hashed and stored
(an unreadable file raises IOError, modelled as `Except.error`); an
accepted directory is recursed into depth-first. -/
def indexChildren (f : Filter) : String → String → List Fs → Except Unit (List Entry)
  | _, _, [] => Except.ok []
  | full, rel, c :: cs =>
    if f.test (full ++ "/" ++ fsName c) then
      match c with
      | .file _ _ none => Except.error ()
      | .file n sz (some h) =>
        (indexChildren f full rel cs).map (fun es => ⟨joinRel rel n, sz, h⟩ :: es)
      | .dir n children =>
        match indexChildren f (full ++ "/" ++ n) (joinRel rel n) children with
        | Except.error e => Except.error e
        | Except.ok sub => (indexChildren f full rel cs).map (fun es => sub ++ es)
    else indexChildren f full rel cs
  termination_by _ _ cs => sizeOf cs
  decreasing_by
  all_goals simp_wf
  all_goals omega

/-- Model of the `index` command's transaction scope (main module lines
202-222 together with `Index.__enter__`/`__exit__`, index.py lines
147-152): `sqlite3.Connection.__exit__` commits every pending insert of
the session when the walk finishes and rolls all of them back when the
walk raises, leaving the store's entries unchanged. -/
def buildSession (store : List Entry) (f : Filter) (root : String) (cs : List Fs) : List Entry :=
  match indexChildren f root "" cs with
  | Except.ok es => store ++ es
  | Except.error _ => store

/-- C7: an indexing build session is atomic. When the full-tree walk
completes, every Entry insertion of the build commits together onto the
store; when the walk raises partway through, the store's entry set is
left unchanged. -/
theorem build_session_atomic (store : List Entry) (f : Filter) (root : String) (cs : List Fs) :
    (∃ es, indexChildren f root "" cs = Except.ok es ∧
      buildSession store f root cs = store ++ es) ∨
    (∃ err, indexChildren f root "" cs = Except.error err ∧
      buildSession store f root cs = store) := by
  cases h : indexChildren f root "" cs with
  | ok es => exact Or.inl ⟨es, rfl, by rw [buildSession, h]⟩
  | error e => exact Or.inr ⟨e, rfl, by rw [buildSession, h]⟩

/-- C9: the filter runs on an entry's path before the entry's kind is
examined, and a rejected entry is skipped entirely: the walk of a child
list containing a rejected entry equals the walk without it. In
particular a rejected directory is never descended into and no Entry is
produced for any file beneath it. -/
theorem scanner_skips_rejected (f : Filter) (full rel : String) (pre post : List Fs) (c : Fs)
    (h : f.test (full ++ "/" ++ fsName c) = false) :
    indexChildren f full rel (pre ++ c :: post) = indexChildren f full rel (pre ++ post) := by
  induction pre with
  | nil =>
    simp only [List.nil_append]
    rw [indexChildren.eq_def]
    simp only []
    rw [if_neg (by rw [h]; exact Bool.false_ne_true)]
  | cons x xt ih =>
    simp only [List.cons_append]
    rw [indexChildren.eq_def]
    conv_rhs => rw [indexChildren.eq_def]
    simp only []
    by_cases hx : f.test (full ++ "/" ++ fsName x) = true
    · rw [if_pos hx, if_pos hx, ih]
    · rw [if_neg hx, if_neg hx]
      exact ih

/-- Witness for C9: with the exclude pattern `*skip*` the directory
`r/skip` is rejected, and the walk of a tree holding it (with a file
inside) equals the walk of the empty tree: no Entry is produced beneath
the rejected directory. -/
theorem scanner_skips_rejected_witness :
    indexChildren ⟨[], ["*skip*"]⟩ "r" "" [Fs.dir "skip" [Fs.file "x" 1 (some "h")]] =
      indexChildren ⟨[], ["*skip*"]⟩ "r" "" [] :=
  scanner_skips_rejected ⟨[], ["*skip*"]⟩ "r" "" [] []
    (Fs.dir "skip" [Fs.file "x" 1 (some "h")]) (by decide)

end Filebulk
